import Mathlib

/-!
Verification development for the tsdown-plugin-inject-css repository.

The plugin (src/index.ts) restores stylesheet import statements into bundled
output chunks.  Its pieces are embedded here shallowly:

- extractCssImports: the regex scan over source text, embedded as an explicit
  backtracking matcher for the pattern used by the code, namely the literal
  word import, one or more whitespace characters, an opening quote, a lazy
  body ending in .css with an optional query part, and the matching closing
  quote, scanned globally from left to right.
- the transform hook, which records stylesheet imports per module id,
- the outputOptions hook, which defaults hoistTransitiveImports,
- generateBundle, which aggregates stylesheet paths per chunk, validates them
  against the emitted .css file names, and splices import or require lines
  into code chunks at a position obtained from an external parser capability
  (modelled as a function returning the top-level nodes with kind and start
  offset, exactly as the code consumes them).

JavaScript strings are modelled as Lean strings viewed as lists of
characters; JavaScript Map and Set are modelled as insertion-ordered
association lists and duplicate-free lists.
-/

/-- The two quote characters recognized by the character class in the regex. -/
def isQuote (c : Char) : Bool := c = '\x22' || c = '\x27'

/-- JavaScript line terminators, which the regex dot does not match. -/
def isLineTerminator (c : Char) : Bool :=
  c = '\n' || c = '\r' || c = '\u2028' || c = '\u2029'

/-- JavaScript whitespace as matched by the regex escape for spaces. -/
def isJsSpace (c : Char) : Bool :=
  c = '\x09' || c = '\x0a' || c = '\x0b' || c = '\x0c' || c = '\x0d' || c = ' '
  || c = '\u00a0' || c = '\u1680'
  || ('\u2000' ≤ c && c ≤ '\u200a')
  || c = '\u2028' || c = '\u2029' || c = '\u202f' || c = '\u205f'
  || c = '\u3000' || c = '\ufeff'

/-- Greedy run of characters other than a quote, used for the query part of
the regex: the negated character class star. Returns the consumed run and
the remainder. -/
def chompNonQuote : List Char → List Char × List Char
  | [] => ([], [])
  | c :: cs =>
    if isQuote c then ([], c :: cs)
    else ((c :: (chompNonQuote cs).1), (chompNonQuote cs).2)

/-- Attempt of the optional query group followed by the closing quote:
a question mark, then a greedy run of non-quote characters, then the
backreferenced quote.  Returns the consumed group and the remainder after
the closing quote. -/
def tryOptQuery (q : Char) : List Char → Option (List Char × List Char)
  | [] => none
  | c :: cs =>
    if c = '?' then
      match chompNonQuote cs with
      | (mid, d :: rest) => if d = q then some ('?' :: mid, rest) else none
      | (_, []) => none
    else none

/-- After the body has matched the .css literal: greedy optional query group
first, otherwise the closing quote directly. -/
def closeAfterCss (q : Char) (cs : List Char) : Option (List Char × List Char) :=
  match tryOptQuery q cs with
  | some r => some r
  | none =>
    match cs with
    | c :: rest => if c = q then some ([], rest) else none
    | [] => none

/-- The lazy body of the regex: the shortest run of non-line-terminator
characters followed by the .css literal whose continuation closes with the
backreferenced quote.  Returns the captured group (body including .css and
any query part) and the remainder after the closing quote. -/
def lazyBody (q : Char) : List Char → Option (List Char × List Char)
  | [] => none
  | c :: rest =>
    match (if c = '.' ∧ rest.take 3 = ['c', 's', 's'] then closeAfterCss q (rest.drop 3) else none) with
    | some x => some ('.' :: 'c' :: 's' :: 's' :: x.1, x.2)
    | none =>
      if isLineTerminator c then none
      else
        match lazyBody q rest with
        | some x => some (c :: x.1, x.2)
        | none => none

/-- Maximal run of whitespace dropped, for the greedy one-or-more whitespace
in the regex (nothing after it can match a whitespace character, so the
maximal run is exact). -/
def dropWs : List Char → List Char
  | [] => []
  | c :: cs => if isJsSpace c then dropWs cs else c :: cs

/-- One attempt of the whole regex at the current position: the import
keyword, at least one whitespace character, an opening quote, the lazy body,
and the closing quote.  Returns the captured stylesheet path and the
remainder of the text. -/
def matchImportAt (cs : List Char) : Option (String × List Char) :=
  if cs.take 6 = ['i', 'm', 'p', 'o', 'r', 't'] then
    match cs.drop 6 with
    | c :: rest1 =>
      if isJsSpace c then
        match dropWs rest1 with
        | q :: body =>
          if isQuote q then
            match lazyBody q body with
            | some x => some (x.1.asString, x.2)
            | none => none
          else none
        | [] => none
      else none
    | [] => none
  else none

/-- The global exec loop: find the leftmost match at or after the current
position, record its capture, continue right after the match.  The fuel is
the length of the text; every step consumes at least one character, so the
fuel never runs out. -/
def scanImports (fuel : Nat) (cs : List Char) : List String :=
  match cs, fuel with
  | [], _ => []
  | _ :: _, 0 => []
  | c :: cs0, fuel0 + 1 =>
    match matchImportAt (c :: cs0) with
    | some x => x.1 :: scanImports fuel0 x.2
    | none => scanImports fuel0 cs0

/-- extractCssImports from src/index.ts: collect the captures of all
successive matches of the stylesheet import regex over the source text. -/
def extractCssImports (code : String) : List String :=
  scanImports code.data.length code.data

/-- The same scan also reporting the start position of each match inside the
text, used to state that captures come back in order of appearance. -/
def scanImportsPos (fuel : Nat) (pos : Nat) (cs : List Char) : List (Nat × String) :=
  match cs, fuel with
  | [], _ => []
  | _ :: _, 0 => []
  | c :: cs0, fuel0 + 1 =>
    match matchImportAt (c :: cs0) with
    | some x => (pos, x.1) :: scanImportsPos fuel0 (pos + ((c :: cs0).length - x.2.length)) x.2
    | none => scanImportsPos fuel0 (pos + 1) cs0

/-- Positions and captures of all matches of the stylesheet import regex. -/
def extractWithPositions (code : String) : List (Nat × String) :=
  scanImportsPos code.data.length 0 code.data

/-- The text has no stylesheet import in the sense of the extraction regex:
no position admits a match.  Positions at or beyond the length are vacuous
because the remainder is empty there. -/
def noStylesheetImport (code : String) : Prop :=
  ∀ n < code.data.length, matchImportAt (code.data.drop n) = none

/-- JavaScript String.prototype method semantics for list views: does the
first list begin with the second. -/
def listStartsWith : List Char → List Char → Bool
  | _, [] => true
  | [], _ :: _ => false
  | c :: cs, p :: ps => c = p && listStartsWith cs ps

/-- JavaScript startsWith on strings. -/
def jsStartsWith (s pre0 : String) : Bool := listStartsWith s.data pre0.data

/-- JavaScript endsWith on strings. -/
def jsEndsWith (s suf : String) : Bool := listStartsWith s.data.reverse suf.data.reverse

/-- JavaScript slice from the start of the string. -/
def strTake (s : String) (n : Nat) : String := (s.data.take n).asString

/-- JavaScript slice to the end of the string. -/
def strDrop (s : String) (n : Nat) : String := (s.data.drop n).asString

/-- JavaScript Array.prototype.join semantics. -/
def joinWith (sep : String) : List String → String
  | [] => ""
  | [s] => s
  | s :: s2 :: rest => s ++ sep ++ joinWith sep (s2 :: rest)

/-- JavaScript Map lookup over an insertion-ordered association list. -/
def assocGet {α : Type} : List (String × α) → String → Option α
  | [], _ => none
  | e :: rest, k => if e.1 = k then some e.2 else assocGet rest k

/-- JavaScript Map set: replace the value of a present key in place,
otherwise append the new entry. -/
def assocSet {α : Type} : List (String × α) → String → α → List (String × α)
  | [], k, v => [(k, v)]
  | e :: rest, k, v => if e.1 = k then (k, v) :: rest else e :: assocSet rest k v

/-- JavaScript Set add over an insertion-ordered duplicate-free list. -/
def setAdd (s : List String) (x : String) : List String :=
  if s.contains x then s else s ++ [x]

/-- The test of the transform hook regex: a dot then ts, tsx, js or jsx at
the end of the module id. -/
def scriptFileRegexTest (id : String) : Bool :=
  jsEndsWith id ".ts" || jsEndsWith id ".tsx" || jsEndsWith id ".js" || jsEndsWith id ".jsx"

/-- The transform hook from src/index.ts: on script files, record the
extracted stylesheet imports for the module id when there is at least one;
always return null (modelled as none) since the source is never changed. -/
def transformHook (cssImportMap : List (String × List String)) (code id : String) :
    List (String × List String) × Option String :=
  if scriptFileRegexTest id = false then (cssImportMap, none)
  else if (extractCssImports code).length > 0 then
    (assocSet cssImportMap id (extractCssImports code), none)
  else (cssImportMap, none)

/-- A whole sequence of transform invocations starting from the empty
module-to-imports map; inputs are (code, id) pairs. -/
def runTransforms (inputs : List (String × String)) : List (String × List String) :=
  inputs.foldl (fun m ci => (transformHook m ci.1 ci.2).1) []

/-- The output options of the host, with the transitive-import-hoisting flag
modelled as an optional boolean (none stands for a value that is not a
boolean, such as undefined) and the remaining options kept opaque. -/
structure OutputOptsModel where
  hoistTransitiveImports : Option Bool
  rest : String
deriving DecidableEq, Repr

/-- The outputOptions hook from src/index.ts: if the flag is not already a
boolean, return a copy with the flag set to false; otherwise return the
options unchanged. -/
def outputOptionsHook (o : OutputOptsModel) : OutputOptsModel :=
  match o.hoistTransitiveImports with
  | none => { o with hoistTransitiveImports := some false }
  | some _ => o

/-- A top-level node as consumed from the external parser: its kind and the
start offset of its range. -/
structure SgNode where
  kind : String
  startIndex : Nat
deriving DecidableEq, Repr

/-- One entry of the output bundle: its key (file name), whether its type is
chunk, its code text, and its stored source map kept opaque. -/
structure OutputEntry where
  fileName : String
  isChunk : Bool
  code : String
  map : Option String
deriving DecidableEq, Repr

/-- The node kinds skipped when looking for the insertion position. -/
def excludeTokens : List String := ["import_statement", "expression_statement"]

/-- The insertion position: the start offset of the first top-level node
whose kind is not excluded, or 0 when every node is excluded. -/
def findInjectPosition (nodes : List SgNode) : Nat :=
  match nodes.find? (fun n => !(excludeTokens.contains n.kind)) with
  | some n => n.startIndex
  | none => 0

/-- The .css file names present among the bundle keys. -/
def outputCssFiles (bundle : List OutputEntry) : List String :=
  (bundle.map OutputEntry.fileName).filter (fun f => jsEndsWith f ".css")

/-- The path normalization of generateBundle: replace an anchored leading
dot-slash once (and nothing else). -/
def normalizeCssPath (p : String) : String :=
  if listStartsWith p.data ['.', '/'] then (p.data.drop 2).asString else p

/-- The inner loop of the aggregation: add each normalized stylesheet path
that is present among the output .css files to the set of the chunk. -/
def addChunkImports (outCss : List String) (cur : List String) (imports : List String) :
    List String :=
  imports.foldl (fun s ci =>
    let np := normalizeCssPath ci
    if outCss.contains np then setAdd s np else s) cur

/-- One step of the chunk-to-stylesheets aggregation for one recorded
module: resolve the module to its chunk (skipping unresolved modules and the
falsy empty chunk name), then add its validated imports to that chunk. -/
def buildStep (outCss : List String) (mtc : List (String × String))
    (acc : List (String × List String)) (e : String × List String) :
    List (String × List String) :=
  match assocGet mtc e.1 with
  | none => acc
  | some chunkName =>
    if chunkName = "" then acc
    else assocSet acc chunkName (addChunkImports outCss ((assocGet acc chunkName).getD []) e.2)

/-- The chunk-to-stylesheets map built by generateBundle from the recorded
module imports and the module-to-chunk assignments. -/
def buildChunkCssMap (outCss : List String) (cim : List (String × List String))
    (mtc : List (String × String)) : List (String × List String) :=
  cim.foldl (buildStep outCss mtc) []

/-- Script extensions accepted for injection targets. -/
def scriptExtension (name : String) : Bool :=
  jsEndsWith name ".js" || jsEndsWith name ".mjs" || jsEndsWith name ".cjs"

/-- Path resolution before emission: keep paths already marked relative,
otherwise prefix the dot-slash marker. -/
def resolveCssFilePath (p : String) : String :=
  if jsStartsWith p "./" || jsStartsWith p "../" then p else "./" ++ p

/-- The emitted statement for one stylesheet path: ES-module import form
when the output format is es, CommonJS require form otherwise. -/
def makeInjection (format : String) (p : String) : String :=
  if format = "es" then "import \x27" ++ resolveCssFilePath p ++ "\x27;"
  else "require(\x27" ++ resolveCssFilePath p ++ "\x27);"

/-- The per-entry part of generateBundle: skip non-chunks, non-script file
names and chunks with an absent or empty stylesheet set; otherwise splice
the joined injection lines into the code at the computed position. -/
def processChunk (parseChildren : String → List SgNode) (format : String)
    (chunkCssMap : List (String × List String)) (entry : OutputEntry) : OutputEntry :=
  if entry.isChunk = false then entry
  else if scriptExtension entry.fileName = false then entry
  else
    match assocGet chunkCssMap entry.fileName with
    | none => entry
    | some cssFiles =>
      if cssFiles = [] then entry
      else
        let position := findInjectPosition (parseChildren entry.code)
        let injections := cssFiles.map (makeInjection format)
        let newCode :=
          strTake entry.code position ++ joinWith "\n" injections ++ "\n"
            ++ strDrop entry.code position
        { entry with code := newCode }

/-- The generateBundle hook from src/index.ts, with the external parser
passed as a capability: gather the output .css names, aggregate stylesheet
paths per chunk, then process every bundle entry. -/
def generateBundle (parseChildren : String → List SgNode) (format : String)
    (cim : List (String × List String)) (mtc : List (String × String))
    (bundle : List OutputEntry) : List OutputEntry :=
  bundle.map (processChunk parseChildren format (buildChunkCssMap (outputCssFiles bundle) cim mtc))

/-- Modelled from the spec: the normalization the specification describes
for validating a declared stylesheet path, stripping the relative marker AND
the query suffix.  This is the spec-side definition used to compare against
normalizeCssPath, which the code actually uses. -/
def specNormalizeStripQuery (p : String) : String :=
  let stripped := if listStartsWith p.data ['.', '/'] then p.data.drop 2 else p.data
  (stripped.takeWhile (fun c => c ≠ '?')).asString

theorem chompNonQuote_eq_append (l : List Char) :
    l = (chompNonQuote l).1 ++ (chompNonQuote l).2 := by
  induction l with
  | nil => rfl
  | cons c cs ih =>
    by_cases h : isQuote c = true
    · simp [chompNonQuote, h]
    · simp only [chompNonQuote, h]
      simp only [Bool.false_eq_true, if_false, List.cons_append]
      exact congrArg (c :: ·) ih

theorem tryOptQuery_shape {q : Char} {l : List Char} {x : List Char × List Char}
    (h : tryOptQuery q l = some x) : l = x.1 ++ q :: x.2 := by
  unfold tryOptQuery at h
  split at h
  · cases h
  next c cs =>
    split at h
    next hc =>
      split at h
      next mid d rest hmid =>
        split at h
        next hd =>
          cases h
          have hsplit := chompNonQuote_eq_append cs
          rw [hmid] at hsplit
          simp only [List.cons_append]
          rw [hsplit, hc, hd]
        · cases h
      next hmid => cases h
    · cases h

theorem closeAfterCss_shape {q : Char} {cs : List Char} {x : List Char × List Char}
    (h : closeAfterCss q cs = some x) : cs = x.1 ++ q :: x.2 := by
  unfold closeAfterCss at h
  split at h
  next r ht =>
    cases h
    exact tryOptQuery_shape ht
  next ht =>
    split at h
    next c rest =>
      split at h
      next hc =>
        cases h
        simp [hc]
      · cases h
    · cases h

theorem lazyBody_shape {q : Char} {l : List Char} {x : List Char × List Char}
    (h : lazyBody q l = some x) : l = x.1 ++ q :: x.2 := by
  induction l generalizing x with
  | nil => simp [lazyBody] at h
  | cons c rest ih =>
    simp only [lazyBody] at h
    by_cases hg : (c = '.' ∧ rest.take 3 = ['c', 's', 's'])
    · rw [if_pos hg] at h
      rcases hcl : closeAfterCss q (rest.drop 3) with _ | y
      · rw [hcl] at h
        by_cases hlt : isLineTerminator c = true
        · simp [hlt] at h
        · simp only [hlt, Bool.false_eq_true, if_false] at h
          rcases hlb : lazyBody q rest with _ | z
          · rw [hlb] at h; cases h
          · rw [hlb] at h
            cases h
            simpa using congrArg (c :: ·) (ih hlb)
      · rw [hcl] at h
        cases h
        have hrest : rest = rest.take 3 ++ rest.drop 3 := (List.take_append_drop 3 rest).symm
        rw [hg.2, closeAfterCss_shape hcl] at hrest
        simp [hg.1, hrest]
    · rw [if_neg hg] at h
      by_cases hlt : isLineTerminator c = true
      · simp [hlt] at h
      · simp only [hlt, Bool.false_eq_true, if_false] at h
        rcases hlb : lazyBody q rest with _ | z
        · rw [hlb] at h; cases h
        · rw [hlb] at h
          cases h
          simpa using congrArg (c :: ·) (ih hlb)

theorem dropWs_suffix (l : List Char) : ∃ w, l = w ++ dropWs l := by
  induction l with
  | nil => exact ⟨[], rfl⟩
  | cons c cs ih =>
    by_cases h : isJsSpace c = true
    · obtain ⟨w, hw⟩ := ih
      exact ⟨c :: w, by simp [dropWs, h, ← hw]⟩
    · exact ⟨[], by simp [dropWs, h]⟩

theorem matchImportAt_shape {cs : List Char} {x : String × List Char}
    (h : matchImportAt cs = some x) : ∃ pre0, pre0 ≠ [] ∧ cs = pre0 ++ x.2 := by
  unfold matchImportAt at h
  split at h
  next h6 =>
    split at h
    next c rest1 hd =>
      split at h
      next hws =>
        split at h
        next q body hdw =>
          split at h
          next hq =>
            split at h
            next y hlb =>
              cases h
              obtain ⟨w, hw⟩ := dropWs_suffix rest1
              rw [hdw] at hw
              have hbody := lazyBody_shape hlb
              refine ⟨cs.take 6 ++ c :: w ++ q :: (y.1 ++ [q]), by simp, ?_⟩
              conv_lhs => rw [← List.take_append_drop 6 cs, hd, hw, hbody]
              simp
            next hlb => cases h
          · cases h
        next hdw => cases h
      · cases h
    next hd => cases h
  · cases h

theorem matchImportAt_length_lt {cs : List Char} {x : String × List Char}
    (h : matchImportAt cs = some x) : x.2.length < cs.length := by
  obtain ⟨pre0, hne, hcs⟩ := matchImportAt_shape h
  rw [hcs, List.length_append]
  have : 0 < pre0.length := List.length_pos.mpr hne
  omega

theorem closeAfterCss_cons_none {q a : Char} {u : List Char}
    (h1 : a ≠ '?') (h2 : a ≠ q) : closeAfterCss q (a :: u) = none := by
  unfold closeAfterCss tryOptQuery
  simp [h1, h2]

theorem isQuote_ne_qmark {q : Char} (hq : isQuote q = true) : q ≠ '?' := by
  have h : q = '\x22' ∨ q = '\x27' := by simpa [isQuote] using hq
  rcases h with h | h <;> subst h <;> decide

theorem isQuote_not_space {q : Char} (hq : isQuote q = true) : isJsSpace q = false := by
  have h : q = '\x22' ∨ q = '\x27' := by simpa [isQuote] using hq
  rcases h with h | h <;> subst h <;> decide

theorem lazyBody_append {q : Char} (hq : isQuote q = true) (stem rest : List Char)
    (hstem : ∀ c ∈ stem, isQuote c = false ∧ c ≠ '?' ∧ isLineTerminator c = false) :
    lazyBody q (stem ++ ['.', 'c', 's', 's'] ++ q :: rest)
      = some (stem ++ ['.', 'c', 's', 's'], rest) := by
  induction stem with
  | nil =>
    have h : q = '\x22' ∨ q = '\x27' := by simpa [isQuote] using hq
    rcases h with h | h <;> subst h <;> rfl
  | cons c stem0 ih =>
    have hc := hstem c (by simp)
    have hrest : ∀ d ∈ stem0, isQuote d = false ∧ d ≠ '?' ∧ isLineTerminator d = false :=
      fun d hd => hstem d (by simp [hd])
    have ih0 := ih hrest
    have hstep : (c :: stem0) ++ ['.', 'c', 's', 's'] ++ q :: rest
        = c :: (stem0 ++ ['.', 'c', 's', 's'] ++ q :: rest) := by simp
    rw [hstep]
    have hclose :
        (if c = '.' ∧ (stem0 ++ ['.', 'c', 's', 's'] ++ q :: rest).take 3 = ['c', 's', 's'] then
          closeAfterCss q ((stem0 ++ ['.', 'c', 's', 's'] ++ q :: rest).drop 3) else none) = none := by
      by_cases hg : c = '.' ∧ (stem0 ++ ['.', 'c', 's', 's'] ++ q :: rest).take 3 = ['c', 's', 's']
      · rw [if_pos hg]
        have hlen : 3 ≤ (stem0 ++ ['.', 'c', 's', 's']).length := by simp
        have hdrop :
            (stem0 ++ ['.', 'c', 's', 's'] ++ q :: rest).drop 3
              = (stem0 ++ ['.', 'c', 's', 's']).drop 3 ++ q :: rest := by
          rw [List.append_assoc, ← List.append_assoc]
          exact List.drop_append_of_le_length hlen
        rcases hd : (stem0 ++ ['.', 'c', 's', 's']).drop 3 with _ | ⟨a, u⟩
        · have := congrArg List.length hd
          simp at this
        · have ha : a ∈ stem0 ++ ['.', 'c', 's', 's'] := by
            have ha0 : a ∈ (stem0 ++ ['.', 'c', 's', 's']).drop 3 := by rw [hd]; simp
            exact (List.drop_subset 3 _) ha0
          have haq : isQuote a = false ∧ a ≠ '?' := by
            rcases List.mem_append.mp ha with h | h
            · exact ⟨(hrest a h).1, (hrest a h).2.1⟩
            · fin_cases h <;> exact ⟨by decide, by decide⟩
          have haneq : a ≠ q := by
            intro hcontra
            rw [hcontra, hq] at haq
            exact Bool.true_eq_false.mp haq.1
          rw [hdrop, hd]
          simp only [List.cons_append]
          exact closeAfterCss_cons_none haq.2 haneq
      · exact if_neg hg
    simp only [lazyBody]
    rw [hclose]
    simp only [hc.2.2, Bool.false_eq_true, if_false]
    rw [ih0]
    simp

theorem matchImportAt_literal {q : Char} (hq : isQuote q = true) (stem tail : List Char)
    (hstem : ∀ c ∈ stem, isQuote c = false ∧ c ≠ '?' ∧ isLineTerminator c = false) :
    matchImportAt
        ('i' :: 'm' :: 'p' :: 'o' :: 'r' :: 't' :: ' ' :: q :: (stem ++ ['.', 'c', 's', 's'] ++ q :: tail))
      = some ((stem ++ ['.', 'c', 's', 's']).asString, tail) := by
  unfold matchImportAt
  have h6 : ('i' :: 'm' :: 'p' :: 'o' :: 'r' :: 't' :: ' ' :: q ::
      (stem ++ ['.', 'c', 's', 's'] ++ q :: tail)).take 6 = ['i', 'm', 'p', 'o', 'r', 't'] := rfl
  rw [if_pos h6]
  show (match (' ' :: q :: (stem ++ ['.', 'c', 's', 's'] ++ q :: tail)) with
    | c :: rest1 =>
      if isJsSpace c = true then
        match dropWs rest1 with
        | q0 :: body =>
          if isQuote q0 = true then
            match lazyBody q0 body with
            | some x => some (x.1.asString, x.2)
            | none => none
          else none
        | [] => none
      else none
    | [] => none) = _
  have hsp : isJsSpace ' ' = true := by decide
  simp only [hsp, if_true]
  have hdw : dropWs (q :: (stem ++ ['.', 'c', 's', 's'] ++ q :: tail))
      = q :: (stem ++ ['.', 'c', 's', 's'] ++ q :: tail) := by
    unfold dropWs
    rw [isQuote_not_space hq]
    simp
  rw [hdw]
  simp only [hq, if_true]
  rw [lazyBody_append hq stem tail hstem]

theorem scanImportsPos_map_snd (fuel : Nat) :
    ∀ (pos : Nat) (cs : List Char),
      (scanImportsPos fuel pos cs).map Prod.snd = scanImports fuel cs := by
  induction fuel with
  | zero => intro pos cs; cases cs <;> simp [scanImports, scanImportsPos]
  | succ fuel0 ih =>
    intro pos cs
    cases cs with
    | nil => simp [scanImports, scanImportsPos]
    | cons c cs0 =>
      rcases hm : matchImportAt (c :: cs0) with _ | x
      · simp [scanImports, scanImportsPos, hm, ih]
      · simp [scanImports, scanImportsPos, hm, ih]

theorem scanImportsPos_lb (fuel : Nat) :
    ∀ (pos : Nat) (cs : List Char) (x : Nat × String),
      x ∈ scanImportsPos fuel pos cs → pos ≤ x.1 := by
  induction fuel with
  | zero => intro pos cs x hx; cases cs <;> simp [scanImportsPos] at hx
  | succ fuel0 ih =>
    intro pos cs x hx
    cases cs with
    | nil => simp [scanImportsPos] at hx
    | cons c cs0 =>
      rcases hm : matchImportAt (c :: cs0) with _ | y
      · simp only [scanImportsPos, hm] at hx
        have := ih (pos + 1) cs0 x hx
        omega
      · simp only [scanImportsPos, hm, List.mem_cons] at hx
        rcases hx with hx | hx
        · rw [hx]
        · have := ih _ _ x hx
          omega

theorem scanImportsPos_chain (fuel : Nat) :
    ∀ (pos : Nat) (cs : List Char),
      List.Chain' (fun a b => a.1 < b.1) (scanImportsPos fuel pos cs) := by
  induction fuel with
  | zero => intro pos cs; cases cs <;> simp [scanImportsPos]
  | succ fuel0 ih =>
    intro pos cs
    cases cs with
    | nil => simp [scanImportsPos]
    | cons c cs0 =>
      rcases hm : matchImportAt (c :: cs0) with _ | y
      · simpa only [scanImportsPos, hm] using ih (pos + 1) cs0
      · simp only [scanImportsPos, hm]
        rw [List.chain'_cons']
        refine ⟨?_, ih _ _⟩
        intro b hb
        have hmem : b ∈ scanImportsPos fuel0 (pos + ((c :: cs0).length - y.2.length)) y.2 :=
          List.mem_of_mem_head? hb
        have hlb := scanImportsPos_lb fuel0 _ _ b hmem
        have hlt := matchImportAt_length_lt hm
        simp only [List.length_cons] at hlt hlb
        omega

theorem scanImportsPos_is_match (fuel : Nat) :
    ∀ (pos : Nat) (cs : List Char) (x : Nat × String),
      x ∈ scanImportsPos fuel pos cs →
      ∃ r, matchImportAt (cs.drop (x.1 - pos)) = some (x.2, r) := by
  induction fuel with
  | zero => intro pos cs x hx; cases cs <;> simp [scanImportsPos] at hx
  | succ fuel0 ih =>
    intro pos cs x hx
    cases cs with
    | nil => simp [scanImportsPos] at hx
    | cons c cs0 =>
      rcases hm : matchImportAt (c :: cs0) with _ | y
      · simp only [scanImportsPos, hm] at hx
        have hlb := scanImportsPos_lb fuel0 (pos + 1) cs0 x hx
        obtain ⟨r, hr⟩ := ih (pos + 1) cs0 x hx
        refine ⟨r, ?_⟩
        have hdr : (c :: cs0).drop (x.1 - pos) = cs0.drop (x.1 - (pos + 1)) := by
          have h1 : x.1 - pos = (x.1 - (pos + 1)) + 1 := by omega
          rw [h1, List.drop_succ_cons]
        rw [hdr]
        exact hr
      · simp only [scanImportsPos, hm, List.mem_cons] at hx
        rcases hx with hx | hx
        · refine ⟨y.2, ?_⟩
          rw [hx]
          simpa using hm
        · obtain ⟨pre0, hpre_ne, hpre⟩ := matchImportAt_shape hm
          have hlb := scanImportsPos_lb fuel0 _ _ x hx
          obtain ⟨r, hr⟩ := ih _ _ x hx
          refine ⟨r, ?_⟩
          have hk : y.2 = (c :: cs0).drop pre0.length := by
            rw [hpre, List.drop_left]
          have hlen : (c :: cs0).length = pre0.length + y.2.length := by
            rw [hpre, List.length_append]
          have hpos : pos + ((c :: cs0).length - y.2.length) = pos + pre0.length := by omega
          rw [hpos] at hlb hr
          have hdr : (c :: cs0).drop (x.1 - pos)
              = y.2.drop (x.1 - (pos + pre0.length)) := by
            rw [hk, List.drop_drop]
            congr 1
            omega
          rw [hdr]
          exact hr

theorem scanImports_eq_nil (fuel : Nat) :
    ∀ cs : List Char, (∀ n, matchImportAt (cs.drop n) = none) → scanImports fuel cs = [] := by
  induction fuel with
  | zero => intro cs h; cases cs <;> simp [scanImports]
  | succ fuel0 ih =>
    intro cs h
    cases cs with
    | nil => simp [scanImports]
    | cons c cs0 =>
      have h0 := h 0
      simp only [List.drop_zero] at h0
      simp only [scanImports, h0]
      exact ih cs0 (fun n => by simpa using h (n + 1))

theorem containsStr_iff {l : List String} {a : String} : l.contains a = true ↔ a ∈ l :=
  ⟨List.mem_of_elem_eq_true, List.elem_eq_true_of_mem⟩

theorem mem_setAdd {s : List String} {x p : String} :
    p ∈ setAdd s x ↔ p ∈ s ∨ p = x := by
  unfold setAdd
  by_cases h : s.contains x = true
  · rw [if_pos h]
    constructor
    · exact Or.inl
    · rintro (hp | rfl)
      · exact hp
      · exact containsStr_iff.mp h
  · rw [if_neg h]
    simp

theorem assocGet_assocSet {α : Type} (m : List (String × α)) (k j : String) (v : α) :
    assocGet (assocSet m k v) j = if j = k then some v else assocGet m j := by
  induction m with
  | nil =>
    by_cases hj : j = k
    · subst hj; simp [assocSet, assocGet]
    · simp [assocSet, assocGet, hj, Ne.symm hj]
  | cons e rest ih =>
    by_cases he : e.1 = k
    · by_cases hj : j = k
      · subst hj; simp [assocSet, assocGet, he]
      · simp [assocSet, assocGet, he, hj, Ne.symm hj,
          (by rw [he]; exact Ne.symm hj : ¬ e.1 = j)]
    · by_cases hej : e.1 = j
      · have hjk : ¬ j = k := fun h => he (by rw [hej, h])
        simp [assocSet, assocGet, he, hej, hjk]
      · simp [assocSet, assocGet, he, hej, ih]

theorem mem_addChunkImports {outCss imports : List String} {cur : List String} {p : String} :
    p ∈ addChunkImports outCss cur imports
    ↔ p ∈ cur ∨ ∃ ci ∈ imports, normalizeCssPath ci = p ∧ p ∈ outCss := by
  induction imports generalizing cur with
  | nil => simp [addChunkImports]
  | cons ci rest ih =>
    have hstep : addChunkImports outCss cur (ci :: rest)
        = addChunkImports outCss
            (if outCss.contains (normalizeCssPath ci) then setAdd cur (normalizeCssPath ci) else cur)
            rest := by
      simp [addChunkImports]
    rw [hstep, ih]
    by_cases h : outCss.contains (normalizeCssPath ci) = true
    · rw [if_pos h]
      have hmem : normalizeCssPath ci ∈ outCss := containsStr_iff.mp h
      constructor
      · rintro (hc | hr)
        · rcases mem_setAdd.mp hc with hc | rfl
          · exact Or.inl hc
          · exact Or.inr ⟨ci, by simp, rfl, hmem⟩
        · obtain ⟨d, hd, hdp⟩ := hr
          exact Or.inr ⟨d, by simp [hd], hdp⟩
      · rintro (hc | ⟨d, hd, hdp, hdo⟩)
        · exact Or.inl (mem_setAdd.mpr (Or.inl hc))
        · rcases List.mem_cons.mp hd with rfl | hd
          · exact Or.inl (mem_setAdd.mpr (Or.inr hdp.symm))
          · exact Or.inr ⟨d, hd, hdp, hdo⟩
    · rw [if_neg h]
      constructor
      · rintro (hc | ⟨d, hd, hdp, hdo⟩)
        · exact Or.inl hc
        · exact Or.inr ⟨d, by simp [hd], hdp, hdo⟩
      · rintro (hc | ⟨d, hd, hdp, hdo⟩)
        · exact Or.inl hc
        · rcases List.mem_cons.mp hd with rfl | hd
          · exact absurd (containsStr_iff.mpr (hdp ▸ hdo)) h
          · exact Or.inr ⟨d, hd, hdp, hdo⟩

theorem mem_buildFold (outCss : List String) (mtc : List (String × String))
    (chunkName p : String) :
    ∀ (entries : List (String × List String)) (acc : List (String × List String)),
      (p ∈ (assocGet (entries.foldl (buildStep outCss mtc) acc) chunkName).getD []
        ↔ p ∈ (assocGet acc chunkName).getD []
          ∨ ∃ e ∈ entries, assocGet mtc e.1 = some chunkName ∧ chunkName ≠ ""
              ∧ ∃ ci ∈ e.2, normalizeCssPath ci = p ∧ p ∈ outCss) := by
  intro entries
  induction entries with
  | nil => simp
  | cons e rest ih =>
    intro acc
    rw [List.foldl_cons, ih (buildStep outCss mtc acc e)]
    rcases hres : assocGet mtc e.1 with _ | cn
    · have hstep : buildStep outCss mtc acc e = acc := by simp [buildStep, hres]
      rw [hstep]
      constructor
      · rintro (hc | hr)
        · exact Or.inl hc
        · obtain ⟨d, hd, hrest⟩ := hr
          exact Or.inr ⟨d, by simp [hd], hrest⟩
      · rintro (hc | ⟨d, hd, hd1, hrest⟩)
        · exact Or.inl hc
        · rcases List.mem_cons.mp hd with rfl | hd
          · rw [hres] at hd1; cases hd1
          · exact Or.inr ⟨d, hd, hd1, hrest⟩
    · by_cases hcn : cn = ""
      · have hstep : buildStep outCss mtc acc e = acc := by simp [buildStep, hres, hcn]
        rw [hstep]
        constructor
        · rintro (hc | hr)
          · exact Or.inl hc
          · obtain ⟨d, hd, hrest⟩ := hr
            exact Or.inr ⟨d, by simp [hd], hrest⟩
        · rintro (hc | ⟨d, hd, hd1, hne, hrest⟩)
          · exact Or.inl hc
          · rcases List.mem_cons.mp hd with rfl | hd
            · rw [hres] at hd1
              cases hd1
              exact absurd hcn hne
            · exact Or.inr ⟨d, hd, hd1, hne, hrest⟩
      · have hstep : buildStep outCss mtc acc e
            = assocSet acc cn (addChunkImports outCss ((assocGet acc cn).getD []) e.2) := by
          simp [buildStep, hres, hcn]
        rw [hstep, assocGet_assocSet]
        by_cases heq : chunkName = cn
        · rw [if_pos heq]
          subst heq
          simp only [Option.getD_some]
          rw [mem_addChunkImports]
          constructor
          · rintro ((hc | hci) | hr)
            · exact Or.inl hc
            · exact Or.inr ⟨e, by simp, hres, hcn, hci⟩
            · obtain ⟨d, hd, hrest⟩ := hr
              exact Or.inr ⟨d, by simp [hd], hrest⟩
          · rintro (hc | ⟨d, hd, hd1, hne, hci⟩)
            · exact Or.inl (Or.inl hc)
            · rcases List.mem_cons.mp hd with rfl | hd
              · exact Or.inl (Or.inr hci)
              · exact Or.inr ⟨d, hd, hd1, hne, hci⟩
        · rw [if_neg heq]
          constructor
          · rintro (hc | hr)
            · exact Or.inl hc
            · obtain ⟨d, hd, hrest⟩ := hr
              exact Or.inr ⟨d, by simp [hd], hrest⟩
          · rintro (hc | ⟨d, hd, hd1, hne, hci⟩)
            · exact Or.inl hc
            · rcases List.mem_cons.mp hd with rfl | hd
              · rw [hres] at hd1
                cases hd1
                exact absurd rfl heq
              · exact Or.inr ⟨d, hd, hd1, hne, hci⟩

theorem mem_buildChunkCssMap {outCss : List String} {cim : List (String × List String)}
    {mtc : List (String × String)} {chunkName p : String} :
    p ∈ (assocGet (buildChunkCssMap outCss cim mtc) chunkName).getD []
    ↔ ∃ e ∈ cim, assocGet mtc e.1 = some chunkName ∧ chunkName ≠ ""
        ∧ ∃ ci ∈ e.2, normalizeCssPath ci = p ∧ p ∈ outCss := by
  have h := mem_buildFold outCss mtc chunkName p cim []
  rw [buildChunkCssMap, h]
  simp [assocGet]

theorem assocSet_keys {α : Type} (m : List (String × α)) (k j : String) (v : α)
    (h : j ∈ (assocSet m k v).map Prod.fst) : j ∈ m.map Prod.fst ∨ j = k := by
  induction m with
  | nil =>
    simp only [assocSet, List.map_cons, List.map_nil, List.mem_singleton] at h
    exact Or.inr h
  | cons e rest ih =>
    by_cases he : e.1 = k
    · simp only [assocSet, he, if_true, List.map_cons, List.mem_cons] at h
      rcases h with h | h
      · exact Or.inr h
      · exact Or.inl (by simp [h])
    · simp only [assocSet, he, if_false, List.map_cons, List.mem_cons] at h
      rcases h with h | h
      · exact Or.inl (by simp [h])
      · rcases ih h with h1 | h1
        · exact Or.inl (by simp [h1])
        · exact Or.inr h1

theorem transformHook_keys {m : List (String × List String)} {code id j : String}
    (h : j ∈ ((transformHook m code id).1.map Prod.fst)) :
    j ∈ m.map Prod.fst ∨ scriptFileRegexTest j = true := by
  unfold transformHook at h
  split at h
  · exact Or.inl h
  next hscript =>
    split at h
    · rcases assocSet_keys _ _ _ _ h with h1 | h1
      · exact Or.inl h1
      · subst h1
        refine Or.inr ?_
        revert hscript
        cases scriptFileRegexTest j <;> simp
    · exact Or.inl h

theorem runTransforms_keys (inputs : List (String × String)) :
    ∀ (m : List (String × List String)) (j : String),
      j ∈ ((inputs.foldl (fun m ci => (transformHook m ci.1 ci.2).1) m).map Prod.fst) →
      j ∈ m.map Prod.fst ∨ scriptFileRegexTest j = true := by
  induction inputs with
  | nil => intro m j h; exact Or.inl h
  | cons ci rest ih =>
    intro m j h
    rw [List.foldl_cons] at h
    rcases ih _ j h with h1 | h1
    · exact transformHook_keys h1
    · exact Or.inr h1

theorem assocGet_eq_none {α : Type} {m : List (String × α)} {j : String}
    (h : j ∉ m.map Prod.fst) : assocGet m j = none := by
  induction m with
  | nil => rfl
  | cons e rest ih =>
    simp only [List.map_cons, List.mem_cons] at h
    have h1 : ¬ e.1 = j := fun hh => h (Or.inl hh.symm)
    simp only [assocGet, h1, if_false]
    exact ih (fun hh => h (Or.inr hh))

theorem find?_first_qualifying {α : Type} (p : α → Bool) :
    ∀ (l : List α) (i : Nat) (h : i < l.length),
      p (l.get ⟨i, h⟩) = true →
      (∀ j (hj : j < i), p (l.get ⟨j, Nat.lt_trans hj h⟩) = false) →
      l.find? p = some (l.get ⟨i, h⟩) := by
  intro l
  induction l with
  | nil => intro i h; exact absurd h (by simp)
  | cons x xs ih =>
    intro i h hp hprev
    cases i with
    | zero =>
      simp only [List.get] at hp
      rw [List.find?_cons_of_pos _ hp]
      rfl
    | succ i0 =>
      have hx : p x = false := by simpa using hprev 0 (Nat.succ_pos i0)
      rw [List.find?_cons_of_neg _ (by simp [hx])]
      have h0 : i0 < xs.length := by simpa using h
      have hp0 : p (xs.get ⟨i0, h0⟩) = true := by simpa using hp
      have hprev0 : ∀ j (hj : j < i0), p (xs.get ⟨j, Nat.lt_trans hj h0⟩) = false := by
        intro j hj
        simpa using hprev (j + 1) (Nat.succ_lt_succ hj)
      simpa using ih i0 h0 hp0 hprev0

theorem processChunk_skip (parseChildren : String → List SgNode) (format : String)
    (chunkCssMap : List (String × List String)) (entry : OutputEntry)
    (h : ¬ (entry.isChunk = true ∧ scriptExtension entry.fileName = true
        ∧ (assocGet chunkCssMap entry.fileName).getD [] ≠ [])) :
    processChunk parseChildren format chunkCssMap entry = entry := by
  unfold processChunk
  split
  · rfl
  next h1 =>
    split
    · rfl
    next h2 =>
      have h1t : entry.isChunk = true := by revert h1; cases entry.isChunk <;> simp
      have h2t : scriptExtension entry.fileName = true := by
        revert h2; cases scriptExtension entry.fileName <;> simp
      split
      · rfl
      next cssFiles hg =>
        split
        · rfl
        next hne =>
          exfalso
          exact h ⟨h1t, h2t, by rw [hg]; simpa using hne⟩

theorem processChunk_map_field (parseChildren : String → List SgNode) (format : String)
    (chunkCssMap : List (String × List String)) (entry : OutputEntry) :
    (processChunk parseChildren format chunkCssMap entry).map = entry.map := by
  unfold processChunk
  split
  · rfl
  split
  · rfl
  split
  · rfl
  split
  · rfl
  · rfl

theorem processChunk_splice (parseChildren : String → List SgNode) (format : String)
    (chunkCssMap : List (String × List String)) (entry : OutputEntry)
    (cssFiles : List String)
    (hchunk : entry.isChunk = true)
    (hext : scriptExtension entry.fileName = true)
    (hget : assocGet chunkCssMap entry.fileName = some cssFiles)
    (hne : cssFiles ≠ []) :
    processChunk parseChildren format chunkCssMap entry
      = { entry with code := (strTake entry.code (findInjectPosition (parseChildren entry.code))
            ++ joinWith "\n" (cssFiles.map (makeInjection format)) ++ "\n"
            ++ strDrop entry.code (findInjectPosition (parseChildren entry.code))) } := by
  unfold processChunk
  split
  next h1 => rw [hchunk] at h1; cases h1
  split
  next h2 => rw [hext] at h2; cases h2
  split
  next hg => rw [hget] at hg; cases hg
  next cssFiles0 hg =>
    rw [hget] at hg
    cases hg
    split
    next h4 => exact absurd h4 hne
    · rfl

theorem generateBundle_getElem (parseChildren : String → List SgNode) (format : String)
    (cim : List (String × List String)) (mtc : List (String × String))
    (bundle : List OutputEntry) (i : Nat) :
    (generateBundle parseChildren format cim mtc bundle)[i]?
      = (bundle[i]?).map
          (processChunk parseChildren format (buildChunkCssMap (outputCssFiles bundle) cim mtc)) := by
  unfold generateBundle
  exact List.getElem?_map _ _ _

theorem data_append (a b : String) : (a ++ b).data = a.data ++ b.data := rfl

theorem data_asString (l : List Char) : l.asString.data = l := rfl

theorem scanImports_single {c : Char} {cs0 : List Char} {s : String}
    (hm : matchImportAt (c :: cs0) = some (s, [])) :
    scanImports (c :: cs0).length (c :: cs0) = [s] := by
  have hl : (c :: cs0).length = cs0.length + 1 := rfl
  rw [hl]
  simp only [scanImports, hm]

/-- Claim C1, counterexample: the extraction regex requires a quote directly
after the word import (plus whitespace), so a default stylesheet import and
a named stylesheet import are both missed entirely, against the claim that
all three recognized declaration forms are extracted. -/
theorem C1_counterexample :
    extractCssImports "import styles from \x22./button.css\x22;" = []
    ∧ extractCssImports "import \x7b a \x7d from \x22./other.css\x22;" = [] := by
  constructor <;> decide

/-- Claim C1, amended: extractCssImports returns the stylesheet path of
every bare side-effecting stylesheet import (the form with a quote right
after the keyword and whitespace); default or namespace imports and named
or destructured imports are not recognized, and dynamic imports are also
ignored.  Stated for any path made of characters that are not quotes, not a
question mark and not line terminators, ending in the stylesheet
extension. -/
theorem C1_amended_extraction (p : String)
    (hchars : ∀ c ∈ p.data, isQuote c = false ∧ c ≠ '?' ∧ isLineTerminator c = false)
    (hcss : ∃ stem, p.data = stem ++ ['.', 'c', 's', 's']) :
    extractCssImports ("import \x22" ++ p ++ "\x22") = [p]
    ∧ extractCssImports "import(\x22./a.css\x22)" = [] := by
  refine ⟨?_, by decide⟩
  obtain ⟨stem, hp⟩ := hcss
  have hstem : ∀ c ∈ stem, isQuote c = false ∧ c ≠ '?' ∧ isLineTerminator c = false :=
    fun c hc => hchars c (by rw [hp]; exact List.mem_append_left _ hc)
  have hdata : ("import \x22" ++ p ++ "\x22").data
      = 'i' :: 'm' :: 'p' :: 'o' :: 'r' :: 't' :: ' ' :: '\x22'
        :: (stem ++ ['.', 'c', 's', 's'] ++ '\x22' :: []) := by
    rw [data_append, data_append, hp]
    simp
  have hm := matchImportAt_literal (q := '\x22') (by decide) stem [] hstem
  have hs : (stem ++ ['.', 'c', 's', 's']).asString = p := by
    rw [← hp]
    rfl
  unfold extractCssImports
  rw [hdata, scanImports_single hm, hs]

/-- Claim C1, witness. -/
theorem C1_amended_extraction_witness :
    extractCssImports ("import \x22" ++ "./a.css" ++ "\x22") = ["./a.css"] :=
  (C1_amended_extraction "./a.css" (by decide) ⟨['.', '/', 'a'], by decide⟩).1

/-- Claim C2, counterexample: the claim says validation strips the query
suffix before comparing with the output stylesheet names; the code strips
only a leading dot-slash, so a declared path with a query suffix is skipped
even though the spec-side normalization of that path names an emitted
stylesheet. -/
theorem C2_counterexample :
    specNormalizeStripQuery "./style.css?inline" = "style.css"
    ∧ "style.css" ∈ outputCssFiles
        [⟨"index.js", true, "", none⟩, ⟨"style.css", false, "", none⟩]
    ∧ assocGet (buildChunkCssMap
        (outputCssFiles [⟨"index.js", true, "", none⟩, ⟨"style.css", false, "", none⟩])
        [("m.ts", ["./style.css?inline"])] [("m.ts", "index.js")]) "index.js" = some [] := by
  refine ⟨by decide, by decide, by decide⟩

/-- Claim C2, amended: a recorded stylesheet path enters the set of a chunk
exactly when some recorded module resolves to that chunk (with a non-empty,
hence truthy, chunk name), declares the path, and the path normalized by
stripping only a leading dot-slash (the query suffix is kept) coincides
with the name of an emitted .css output file; paths failing the comparison
are silently skipped. -/
theorem C2_validation_iff (cim : List (String × List String)) (mtc : List (String × String))
    (bundle : List OutputEntry) (chunkName p : String) :
    p ∈ (assocGet (buildChunkCssMap (outputCssFiles bundle) cim mtc) chunkName).getD []
    ↔ ∃ e ∈ cim, assocGet mtc e.1 = some chunkName ∧ chunkName ≠ ""
        ∧ ∃ ci ∈ e.2, normalizeCssPath ci = p ∧ p ∈ outputCssFiles bundle :=
  mem_buildChunkCssMap

/-- Claim C3, confirmed: the emitted statement for a stylesheet path is the
ES-module form exactly when the output format is es and the require form
otherwise, and the emitted path is the stylesheet path itself when it
already starts with a relative marker, else the path prefixed with
dot-slash. -/
theorem C3_emitted_statement (format p : String) :
    ((format = "es" → makeInjection format p = "import \x27" ++ resolveCssFilePath p ++ "\x27;")
      ∧ (format ≠ "es" →
          makeInjection format p = "require(\x27" ++ resolveCssFilePath p ++ "\x27);"))
    ∧ ((jsStartsWith p "./" = true ∨ jsStartsWith p "../" = true) → resolveCssFilePath p = p)
    ∧ (jsStartsWith p "./" = false → jsStartsWith p "../" = false →
        resolveCssFilePath p = "./" ++ p) := by
  refine ⟨⟨?_, ?_⟩, ?_, ?_⟩
  · intro h; simp [makeInjection, h]
  · intro h; simp [makeInjection, h]
  · intro h
    unfold resolveCssFilePath
    rcases h with h | h <;> simp [h]
  · intro h1 h2
    simp [resolveCssFilePath, h1, h2]

/-- Claim C3, witness. -/
theorem C3_witness :
    makeInjection "es" "x.css" = "import \x27./x.css\x27;"
    ∧ makeInjection "cjs" "./y.css" = "require(\x27./y.css\x27);"
    ∧ resolveCssFilePath "../z.css" = "../z.css" := by
  refine ⟨?_, ?_, ?_⟩
  · have h := (C3_emitted_statement "es" "x.css").1.1 rfl
    rw [h]; decide
  · have h := (C3_emitted_statement "cjs" "./y.css").1.2 (by decide)
    rw [h]; decide
  · exact (C3_emitted_statement "cjs" "../z.css").2.1 (Or.inr (by decide))

/-- Claim C4, confirmed: a bundle entry that is not a code chunk, or whose
file name lacks a script extension, or whose aggregated stylesheet set is
empty or absent, comes out of the bundle-generation hook byte-for-byte
unchanged. -/
theorem C4_untouched_entries (parseChildren : String → List SgNode) (format : String)
    (cim : List (String × List String)) (mtc : List (String × String))
    (bundle : List OutputEntry) (i : Nat) (e : OutputEntry)
    (he : bundle[i]? = some e)
    (hcond : ¬ (e.isChunk = true ∧ scriptExtension e.fileName = true
        ∧ (assocGet (buildChunkCssMap (outputCssFiles bundle) cim mtc) e.fileName).getD []
            ≠ [])) :
    (generateBundle parseChildren format cim mtc bundle)[i]? = some e := by
  rw [generateBundle_getElem, he]
  simp only [Option.map_some']
  rw [processChunk_skip _ _ _ _ hcond]

/-- Claim C4, witness. -/
theorem C4_witness :
    (generateBundle (fun _ => []) "es" [] [] [⟨"data.json", false, "x", none⟩])[0]?
      = some ⟨"data.json", false, "x", none⟩ :=
  C4_untouched_entries (fun _ => []) "es" [] [] [⟨"data.json", false, "x", none⟩] 0
    ⟨"data.json", false, "x", none⟩ (by decide) (by decide)

/-- Claim C5, confirmed: for a chunk selected for injection, the insertion
offset is the start offset of the first top-level node whose kind is
neither an import statement nor an expression statement; when every node is
one of those (or there are none) the offset defaults to 0 and nothing
fails. -/
theorem C5_insertion_offset (nodes : List SgNode) :
    ((∀ n ∈ nodes, n.kind = "import_statement" ∨ n.kind = "expression_statement") →
      findInjectPosition nodes = 0)
    ∧ (∀ i (h : i < nodes.length),
        ¬ ((nodes.get ⟨i, h⟩).kind = "import_statement"
            ∨ (nodes.get ⟨i, h⟩).kind = "expression_statement") →
        (∀ j (hj : j < i),
          (nodes.get ⟨j, Nat.lt_trans hj h⟩).kind = "import_statement"
            ∨ (nodes.get ⟨j, Nat.lt_trans hj h⟩).kind = "expression_statement") →
        findInjectPosition nodes = (nodes.get ⟨i, h⟩).startIndex) := by
  have hpred : ∀ n : SgNode, ((!(excludeTokens.contains n.kind)) = true)
      ↔ ¬ (n.kind = "import_statement" ∨ n.kind = "expression_statement") := by
    intro n
    constructor
    · intro hb hor
      have hmem : n.kind ∈ excludeTokens := by
        rcases hor with h | h <;> simp [excludeTokens, h]
      rw [containsStr_iff.mpr hmem] at hb
      simp at hb
    · intro hn
      have hmem : n.kind ∉ excludeTokens := by
        intro hmem
        exact hn (by simpa [excludeTokens] using hmem)
      cases hcont : excludeTokens.contains n.kind with
      | false => rfl
      | true => exact absurd (containsStr_iff.mp hcont) hmem
  constructor
  · intro hall
    unfold findInjectPosition
    have hnone : nodes.find? (fun n => !(excludeTokens.contains n.kind)) = none := by
      rw [List.find?_eq_none]
      intro a ha hpa
      exact (hpred a).mp hpa (hall a ha)
    rw [hnone]
  · intro i h hqual hprev
    have hprevb : ∀ j (hj : j < i),
        (fun n => !(excludeTokens.contains n.kind)) (nodes.get ⟨j, Nat.lt_trans hj h⟩)
          = false := by
      intro j hj
      cases hc : (!(excludeTokens.contains (nodes.get ⟨j, Nat.lt_trans hj h⟩).kind)) with
      | false => exact hc
      | true => exact absurd (hprev j hj) ((hpred _).mp hc)
    have hfind := find?_first_qualifying (fun n => !(excludeTokens.contains n.kind)) nodes i h
      ((hpred _).mpr hqual) hprevb
    unfold findInjectPosition
    rw [hfind]

/-- Claim C5, witness. -/
theorem C5_witness :
    findInjectPosition [⟨"import_statement", 0⟩, ⟨"expression_statement", 10⟩,
        ⟨"lexical_declaration", 20⟩] = 20
    ∧ findInjectPosition [⟨"import_statement", 0⟩, ⟨"expression_statement", 10⟩] = 0 := by
  constructor
  · exact ((C5_insertion_offset [⟨"import_statement", 0⟩, ⟨"expression_statement", 10⟩,
        ⟨"lexical_declaration", 20⟩]).2 2 (by decide) (by decide) (by decide)).trans (by decide)
  · exact (C5_insertion_offset [⟨"import_statement", 0⟩, ⟨"expression_statement", 10⟩]).1
      (by decide)

/-- Claim C6, confirmed: for a chunk that receives injections, the spliced
text is the original text up to the computed offset, then the injected
statements joined with newlines as one contiguous block closed by a
newline, then the original text from the offset onward; everything before
and after the insertion point is unchanged. -/
theorem C6_splice_preserves_surroundings (parseChildren : String → List SgNode)
    (format : String) (chunkCssMap : List (String × List String)) (entry : OutputEntry)
    (cssFiles : List String)
    (hchunk : entry.isChunk = true)
    (hext : scriptExtension entry.fileName = true)
    (hget : assocGet chunkCssMap entry.fileName = some cssFiles)
    (hne : cssFiles ≠ []) :
    (processChunk parseChildren format chunkCssMap entry).code.data
      = entry.code.data.take (findInjectPosition (parseChildren entry.code))
        ++ (joinWith "\n" (cssFiles.map (makeInjection format)) ++ "\n").data
        ++ entry.code.data.drop (findInjectPosition (parseChildren entry.code)) := by
  rw [processChunk_splice parseChildren format chunkCssMap entry cssFiles hchunk hext hget hne]
  simp only [data_append, strTake, strDrop, data_asString, List.append_assoc]

/-- Claim C6, witness. -/
theorem C6_witness :
    (processChunk (fun _ => [⟨"lexical_declaration", 4⟩]) "es" [("a.js", ["s.css"])]
        ⟨"a.js", true, "x=1;var y=2;", none⟩).code.data
      = ("x=1;".data) ++ ("import \x27./s.css\x27;\n".data) ++ ("var y=2;".data) := by
  have h := C6_splice_preserves_surroundings (fun _ => [⟨"lexical_declaration", 4⟩]) "es"
    [("a.js", ["s.css"])] ⟨"a.js", true, "x=1;var y=2;", none⟩ ["s.css"]
    (by decide) (by decide) (by decide) (by decide)
  rw [h]
  decide

/-- Claim C8, counterexample: the claim says the stored source map of a
spliced chunk is regenerated to stay consistent with the spliced text under
a sourcemap option; the code exposes no such option and never touches the
stored map, so after splicing changes the text the stored map is still the
untouched pre-splice value. -/
theorem C8_counterexample :
    ((generateBundle (fun _ => []) "es" [("m.ts", ["style.css"])] [("m.ts", "index.js")]
        [⟨"index.js", true, "console.log(1);\n", some "OLDMAP"⟩,
         ⟨"style.css", false, "", none⟩]).map (fun e => (e.map, e.code)))
    = [(some "OLDMAP", "import \x27./style.css\x27;\nconsole.log(1);\n"), (none, "")] := by
  decide

/-- Claim C8, amended: the bundle-generation hook never changes any stored
source map: the maps of all entries after the hook are exactly the maps
before it, whatever happens to the code text. -/
theorem C8_maps_unchanged (parseChildren : String → List SgNode) (format : String)
    (cim : List (String × List String)) (mtc : List (String × String))
    (bundle : List OutputEntry) :
    (generateBundle parseChildren format cim mtc bundle).map OutputEntry.map
      = bundle.map OutputEntry.map := by
  unfold generateBundle
  have hgen : ∀ (M : List (String × List String)) (l : List OutputEntry),
      (l.map (processChunk parseChildren format M)).map OutputEntry.map
        = l.map OutputEntry.map := by
    intro M l
    induction l with
    | nil => rfl
    | cons e rest ih => simp [processChunk_map_field, ih]
  exact hgen _ _

/-- Claim C9, counterexample: the claim says the hook always returns options
with the transitive-import-hoisting flag forced to false; when the incoming
options already carry the boolean true the hook returns them unchanged, so
the flag stays true. -/
theorem C9_counterexample :
    (outputOptionsHook ⟨some true, "opts"⟩).hoistTransitiveImports = some true
    ∧ (outputOptionsHook ⟨some true, "opts"⟩).hoistTransitiveImports ≠ some false := by
  constructor <;> decide

/-- Claim C9, amended: the hook sets the transitive-import-hoisting flag to
false only when the incoming value is not a boolean; options already
carrying a boolean flag are returned unchanged. -/
theorem C9_hoist_default (o : OutputOptsModel) :
    (o.hoistTransitiveImports = none →
      outputOptionsHook o = { o with hoistTransitiveImports := some false })
    ∧ (∀ b, o.hoistTransitiveImports = some b → outputOptionsHook o = o) := by
  obtain ⟨hti, r⟩ := o
  cases hti with
  | none =>
    refine ⟨fun _ => rfl, fun b hb => ?_⟩
    cases hb
  | some b0 =>
    refine ⟨fun h => ?_, fun b hb => rfl⟩
    cases h

/-- Claim C9, witness. -/
theorem C9_witness :
    outputOptionsHook ⟨none, "x"⟩ = ⟨some false, "x"⟩
    ∧ outputOptionsHook ⟨some true, "x"⟩ = ⟨some true, "x"⟩ :=
  ⟨(C9_hoist_default ⟨none, "x"⟩).1 rfl, (C9_hoist_default ⟨some true, "x"⟩).2 true rfl⟩

/-- Claim C10, confirmed: for module ids without a script extension the
transform hook returns null and leaves the module-to-imports map untouched;
consequently such ids are never recorded over any run of transforms, and
every stylesheet path that reaches the set of some chunk comes from a
recorded module whose id has a script extension. -/
theorem C10_nonscript_frame :
    (∀ (m : List (String × List String)) (code id : String),
        scriptFileRegexTest id = false → transformHook m code id = (m, none))
    ∧ (∀ (inputs : List (String × String)) (id : String),
        scriptFileRegexTest id = false → assocGet (runTransforms inputs) id = none)
    ∧ (∀ (inputs : List (String × String)) (mtc : List (String × String))
        (bundle : List OutputEntry) (chunkName p : String),
        p ∈ (assocGet (buildChunkCssMap (outputCssFiles bundle) (runTransforms inputs) mtc)
              chunkName).getD [] →
        ∃ e ∈ runTransforms inputs, scriptFileRegexTest e.1 = true
          ∧ assocGet mtc e.1 = some chunkName ∧ ∃ ci ∈ e.2, normalizeCssPath ci = p) := by
  refine ⟨?_, ?_, ?_⟩
  · intro m code id h
    unfold transformHook
    rw [if_pos h]
  · intro inputs id h
    apply assocGet_eq_none
    intro hmem
    rcases runTransforms_keys inputs [] id hmem with h1 | h1
    · simp at h1
    · rw [h] at h1; cases h1
  · intro inputs mtc bundle chunkName p hp
    obtain ⟨e, he, hres, hne, hci⟩ := mem_buildChunkCssMap.mp hp
    refine ⟨e, he, ?_, hres, ?_⟩
    · have hkey : e.1 ∈ (runTransforms inputs).map Prod.fst := List.mem_map_of_mem _ he
      rcases runTransforms_keys inputs [] e.1 hkey with h1 | h1
      · simp at h1
      · exact h1
    · obtain ⟨ci, hcimem, hcip, _⟩ := hci
      exact ⟨ci, hcimem, hcip⟩

/-- Claim C10, witness. -/
theorem C10_witness :
    transformHook [("a.ts", ["x.css"])] "import \x27x.css\x27" "style.css"
      = ([("a.ts", ["x.css"])], none)
    ∧ assocGet (runTransforms [("import \x27a.css\x27", "m.vue")]) "m.vue" = none :=
  ⟨C10_nonscript_frame.1 _ _ _ (by decide), C10_nonscript_frame.2.1 _ _ (by decide)⟩

/-- Claim C7, confirmed: extraction returns exactly the captures of the
successive matches, one per match, in strictly increasing match-position
order (order of appearance, duplicates preserved since every match
contributes its own element), and returns the empty sequence when no
position of the text admits a match of the stylesheet import pattern. -/
theorem C7_order_duplicates_empty (code : String) :
    ((extractWithPositions code).map Prod.snd = extractCssImports code)
    ∧ List.Chain' (fun a b => a.1 < b.1) (extractWithPositions code)
    ∧ (∀ x ∈ extractWithPositions code,
        ∃ r, matchImportAt (code.data.drop x.1) = some (x.2, r))
    ∧ (noStylesheetImport code → extractCssImports code = []) := by
  refine ⟨scanImportsPos_map_snd _ _ _, scanImportsPos_chain _ _ _, ?_, ?_⟩
  · intro x hx
    have h := scanImportsPos_is_match code.data.length 0 code.data x hx
    simpa using h
  · intro h
    unfold extractCssImports
    apply scanImports_eq_nil
    intro n
    by_cases hn : n < code.data.length
    · exact h n hn
    · have hnil : code.data.drop n = [] := List.drop_eq_nil_of_le (by omega)
      rw [hnil]
      rfl

/-- Claim C7, witness. -/
theorem C7_witness :
    extractCssImports "let x = 1;" = []
    ∧ (∃ r, matchImportAt ((String.data "import \x27a.css\x27 import \x27a.css\x27").drop 15)
        = some ("a.css", r)) := by
  constructor
  · exact (C7_order_duplicates_empty "let x = 1;").2.2.2
      (by unfold noStylesheetImport; decide)
  · exact (C7_order_duplicates_empty "import \x27a.css\x27 import \x27a.css\x27").2.2.1
      (15, "a.css") (by decide)
